import Mathlib

/-!
Verification of the WebDAV object-store adapter
(`src/internal/plugin/objectstoreplugin.go`).

Go strings are modelled as lists of characters (`Str`), Go's
`[]os.FileInfo` directory listings and the directory tree behind them as
the mutual inductive `FSEntry`/`FSList`, and the WebDAV transport's
`ReadDir`/`Remove` calls as pure functions over that tree (the transport
itself is outside the repository; §1 of the design document specifies it
only through its interface).  Fallible transport reads are modelled with
`Except ReadErr`; the root-directory read of each listing operation is an
arbitrary function parameter so that both the in-memory tree instantiation
(`fsReadDir`) and injected failures can drive the theorems.
-/

/-- Go strings, modelled as lists of characters. -/
abbrev Str := List Char

/-- Converts a Lean string literal to the `Str` model, for concrete inputs. -/
def str (s : String) : Str := s.data

/-- The native path separator "/" of the storage transport. -/
def strSlash : Str := ['/']

/-- Models Go `strings.HasPrefix`. -/
def strHasPre (s pre : Str) : Bool := decide (pre <+: s)

/-- Models Go `strings.HasSuffix`. -/
def strHasSuf (s suf : Str) : Bool := decide (suf <:+ s)

/-- Models Go `strings.CutPrefix`: `some` of the remainder when `pre` is a
prefix of `s` (the Go boolean `found` is `true`), `none` otherwise. -/
def cutPre (s pre : Str) : Option Str :=
  if pre <+: s then some (s.drop pre.length) else none

/-- Models Go `strings.LastIndex`: the index of the last occurrence of
`sub` in `s`, or `none` where Go returns -1.  For the empty `sub` it
returns `s.length`, as Go does. -/
def lastIdxOfSubstr : Str → Str → Option Nat
  | [], sub => if sub.isEmpty then some 0 else none
  | c :: rest, sub =>
    match lastIdxOfSubstr rest sub with
    | some i => some (i + 1)
    | none => if sub <+: (c :: rest) then some 0 else none

/-- Embeds `SplitPathToDirAndFilename` (objectstoreplugin.go:96-103): split
on the last native separator "/"; when none is present, `dir` is empty and
`name` is the whole path. -/
def SplitPathToDirAndFilename (path : Str) : Str × Str :=
  match lastIdxOfSubstr path strSlash with
  | none => ([], path)
  | some i => (path.take i, path.drop (i + 1))

/-- Embeds the storage-path construction
`fmt.Sprintf("%s%s%s%s", w.bucketsDir, bucket, w.delimiter, key)` used by
`PutObject`, `ObjectExists`, `GetObject` and `DeleteObject`
(objectstoreplugin.go:106, 126, 153, 368). -/
def toStoragePath (bucketsDir bucket delim key : Str) : Str :=
  bucketsDir ++ bucket ++ delim ++ key

/-- Embeds the `bucketsDir` normalization inside `Init`
(objectstoreplugin.go:68-71).  Note that the Go code tests
`strings.HasPrefix(bucketsDir, "/")`, not `HasSuffix`. -/
def initBucketsDir (bucketsDir : Str) : Str :=
  if bucketsDir ≠ [] ∧ ¬ strHasPre bucketsDir strSlash then bucketsDir ++ strSlash
  else bucketsDir

mutual
/-- One entry of the storage tree: a plain file or a directory with its
children.  A value carries what Go's `os.FileInfo` exposes to the plugin
(`Name()`, `IsDir()`) plus, for directories, the listing a further
`ReadDir` call would return. -/
inductive FSEntry where
  | file : Str → FSEntry
  | dir : Str → FSList → FSEntry
  deriving DecidableEq
/-- A directory listing (`[]os.FileInfo` in Go), as a list of entries. -/
inductive FSList where
  | nil : FSList
  | cons : FSEntry → FSList → FSList
  deriving DecidableEq
end

/-- Models `os.FileInfo.Name()`. -/
def FSEntry.name : FSEntry → Str
  | .file n => n
  | .dir n _ => n

/-- Models `os.FileInfo.IsDir()`. -/
def FSEntry.isDir : FSEntry → Bool
  | .file _ => false
  | .dir _ _ => true

/-- Length of a directory listing, for Go's `len(files)`. -/
def FSList.length : FSList → Nat
  | .nil => 0
  | .cons _ rest => 1 + rest.length

mutual
/-- True when the subtree rooted at the entry contains at least one
non-directory object (the entry itself included). -/
def containsFile : FSEntry → Bool
  | .file _ => true
  | .dir _ ch => containsFileL ch
/-- True when some entry of the listing transitively contains a
non-directory object. -/
def containsFileL : FSList → Bool
  | .nil => false
  | .cons e rest => containsFile e || containsFileL rest
end

/-- Errors of the storage transport as the plugin distinguishes them:
the distinguishable not-found condition (`gowebdav.IsErrNotFound`) and
any other error, carried opaquely. -/
inductive ReadErr where
  | notFound : ReadErr
  | other : Nat → ReadErr
  deriving DecidableEq

/-- Modelled from the spec: splits a path on the native separator "/"
(the out-of-scope transport resolves "/"-separated paths; §1, §6 of the
design document). -/
def splitSlash : Str → List Str
  | [] => [[]]
  | c :: rest =>
    match splitSlash rest with
    | [] => [[]]
    | h :: t => if c = '/' then [] :: h :: t else (c :: h) :: t

/-- Modelled from the spec: the "/"-separated segments of a path, empty
segments dropped (so a trailing "/" is immaterial, as for WebDAV paths). -/
def splitSegs (s : Str) : List Str := (splitSlash s).filter (fun seg => !seg.isEmpty)

/-- Modelled from the spec: finds the children of the first directory
named `seg` in a listing, as the transport's path resolution would. -/
def findDirChildren : FSList → Str → Option FSList
  | .nil, _ => none
  | .cons (.dir n ch) es, seg => if n = seg then some ch else findDirChildren es seg
  | .cons (.file _) es, seg => findDirChildren es seg

/-- Modelled from the spec: resolves a segment path against a tree,
returning the listing of the directory it names. -/
def resolveDir : List Str → FSList → Option FSList
  | [], es => some es
  | seg :: rest, es =>
    match findDirChildren es seg with
    | some ch => resolveDir rest ch
    | none => none

/-- Modelled from the spec: the transport's `ReadDir` over an in-memory
tree; a path that does not resolve yields the not-found condition. -/
def fsReadDir (fs : FSList) (path : Str) : Except ReadErr FSList :=
  match resolveDir (splitSegs path) fs with
  | some es => .ok es
  | none => .error ReadErr.notFound

/-- Modelled from the spec: removes the first entry with the given name
from a listing; `none` when absent. -/
def removeChild : FSList → Str → Option FSList
  | .nil, _ => none
  | .cons e es, seg =>
    if e.name = seg then some es else (removeChild es seg).map (FSList.cons e)

/-- Modelled from the spec: replaces the children of the first directory
named `seg` in a listing. -/
def replaceDirChildren : FSList → Str → FSList → FSList
  | .nil, _, _ => .nil
  | .cons (.dir n ch) es, seg, newCh =>
    if n = seg then .cons (.dir n newCh) es
    else .cons (.dir n ch) (replaceDirChildren es seg newCh)
  | .cons e es, seg, newCh => .cons e (replaceDirChildren es seg newCh)

/-- Modelled from the spec: the transport's `Remove` over an in-memory
tree, deleting the single entry the segment path names; `none` when the
path does not resolve. -/
def removePath : List Str → FSList → Option FSList
  | [], _ => none
  | [seg], es => removeChild es seg
  | seg :: seg2 :: rest, es =>
    match findDirChildren es seg with
    | none => none
    | some ch =>
      match removePath (seg2 :: rest) ch with
      | none => none
      | some ch2 => some (replaceDirChildren es seg ch2)

/-- Embeds `AddDirsWithCommonPrefixes` (objectstoreplugin.go:166-197), the
recursive traversal for the native-delimiter case.  The Go call
`c.ReadDir(completePath)` on a child directory returns that directory's
children, which the tree already carries, so the traversal is pure here;
root-read failures are modelled in `ListCommonPrefixes`. -/
def AddDirsWithCommonPrefixes : List Str → FSList → Str → Str → Str → List Str × Bool
  | acc, .nil, _, _, _ => (acc, true)
  | acc, .cons (.file n) rest, cp, pc, parent =>
    let completePath := parent ++ n ++ strSlash
    if ¬ strHasPre completePath cp then AddDirsWithCommonPrefixes acc rest cp pc parent
    else match cutPre completePath pc with
      | none => AddDirsWithCommonPrefixes acc rest cp pc parent
      | some _ =>
        let r := AddDirsWithCommonPrefixes acc rest cp pc parent
        (r.1, false)
  | acc, .cons (.dir n ch) rest, cp, pc, parent =>
    let completePath := parent ++ n ++ strSlash
    if ¬ strHasPre completePath cp then AddDirsWithCommonPrefixes acc rest cp pc parent
    else match cutPre completePath pc with
      | none => AddDirsWithCommonPrefixes acc rest cp pc parent
      | some common =>
        let sub := AddDirsWithCommonPrefixes acc ch cp pc completePath
        let acc2 := if sub.2 then sub.1 else sub.1 ++ [common]
        AddDirsWithCommonPrefixes acc2 rest cp pc parent

/-- Embeds `GetAllFiles` (objectstoreplugin.go:199-217), the full
depth-first enumeration of non-directory files used by the
non-native-delimiter case; note the Go code appends "/" to every
`completePath`, files included. -/
def GetAllFiles : List Str → FSList → Str → List Str
  | acc, .nil, _ => acc
  | acc, .cons (.file n) rest, parent =>
    GetAllFiles (acc ++ [parent ++ n ++ strSlash]) rest parent
  | acc, .cons (.dir n ch) rest, parent =>
    GetAllFiles (GetAllFiles acc ch (parent ++ n ++ strSlash)) rest parent

/-- Embeds the loop body of `DeterminePrefixesFromFilesWithDelimiter`
(objectstoreplugin.go:219-239); `seen` models the `isPrefixPresent` map. -/
def determineLoop : List Str → Str → Str → List Str → List Str → List Str
  | [], _, _, _, acc => acc
  | f :: rest, delim, pc, seen, acc =>
    match cutPre f pc with
    | none => determineLoop rest delim pc seen acc
    | some common =>
      match lastIdxOfSubstr common delim with
      | none => determineLoop rest delim pc seen acc
      | some i =>
        let cur := common.take i
        if cur ∈ seen then determineLoop rest delim pc seen acc
        else determineLoop rest delim pc (cur :: seen) (acc ++ [cur])

/-- Embeds `DeterminePrefixesFromFilesWithDelimiter`
(objectstoreplugin.go:219-239). -/
def DeterminePrefixesFromFilesWithDelimiter (fileList : List Str) (delim pc : Str) : List Str :=
  determineLoop fileList delim pc [] []

/-- Embeds the prefix normalization shared by `ListCommonPrefixes` and
`ListObjects` (objectstoreplugin.go:262-265, 326-329): a non-empty prefix
is coerced to end with the delimiter. -/
def normalizePfx (pfx delim : Str) : Str :=
  if pfx ≠ [] ∧ ¬ strHasSuf pfx delim then pfx ++ delim else pfx

/-- Embeds `prefixToCut = fmt.Sprintf("%s%s%s", w.bucketsDir, bucket,
delimiter)` (objectstoreplugin.go:266, 353). -/
def prefixToCutOf (bucketsDir bucket delim : Str) : Str := bucketsDir ++ bucket ++ delim

/-- Embeds the listing-root computation of `ListCommonPrefixes`
(objectstoreplugin.go:268-278): for the native delimiter the root is
`bucketsDir+bucket+"/"+prefixToUse`; otherwise only `bucket`. -/
def rootDirOf (bucketsDir bucket pfx delim : Str) : Str :=
  if delim = strSlash then bucketsDir ++ bucket ++ strSlash ++ normalizePfx pfx delim
  else bucket

/-- Embeds the listing path of `ListObjects` (objectstoreplugin.go:330). -/
def objectsPathOf (bucketsDir wdelim bucket pfx : Str) : Str :=
  bucketsDir ++ bucket ++ wdelim ++ normalizePfx pfx wdelim

/-- Embeds `ListCommonPrefixes` (objectstoreplugin.go:241-323).
`bucketsDir` is the adapter's configured buckets directory and `readDir`
the transport's directory read for the listing root; `delim` is the
delimiter argument of the call (the configured one is used only for a
warning log, objectstoreplugin.go:256-258, and does not affect the
result). -/
def ListCommonPrefixes (bucketsDir : Str) (readDir : Str → Except ReadErr FSList)
    (bucket pfx delim : Str) : Except ReadErr (List Str) :=
  let pc := prefixToCutOf bucketsDir bucket delim
  let rootDir := rootDirOf bucketsDir bucket pfx delim
  match readDir rootDir with
  | .error e => if e = ReadErr.notFound then .ok [] else .error e
  | .ok rootSubdirs =>
    if delim = strSlash then
      .ok (AddDirsWithCommonPrefixes [] rootSubdirs rootDir pc rootDir).1
    else
      .ok (DeterminePrefixesFromFilesWithDelimiter (GetAllFiles [] rootSubdirs rootDir) delim pc)

/-- Embeds the result loop of `ListObjects` (objectstoreplugin.go:354-363):
every non-directory entry yields `path+name+delimiter` with the
`prefixToCut` portion cut off the front. -/
def collectObjects : FSList → Str → Str → Str → List Str
  | .nil, _, _, _ => []
  | .cons (.dir _ _) rest, path, pc, wdelim => collectObjects rest path pc wdelim
  | .cons (.file n) rest, path, pc, wdelim =>
    match cutPre (path ++ n ++ wdelim) pc with
    | none => collectObjects rest path pc wdelim
    | some k => k :: collectObjects rest path pc wdelim

/-- Embeds `ListObjects` (objectstoreplugin.go:325-365); `wdelim` is the
adapter's configured delimiter `w.delimiter`. -/
def ListObjects (bucketsDir wdelim : Str) (readDir : Str → Except ReadErr FSList)
    (bucket pfx : Str) : Except ReadErr (List Str) :=
  let path := objectsPathOf bucketsDir wdelim bucket pfx
  match readDir path with
  | .error e => if e = ReadErr.notFound then .ok [] else .error e
  | .ok files => .ok (collectObjects files path (prefixToCutOf bucketsDir bucket wdelim) wdelim)

/-- Embeds `DeleteObject` (objectstoreplugin.go:367-397) against the
in-memory tree transport: remove the object's path, list the parent
directory obtained from `SplitPathToDirAndFilename`, and remove the parent
as well exactly when the listing came back empty. -/
def DeleteObject (bucketsDir wdelim : Str) (fs : FSList) (bucket key : Str) :
    Except ReadErr FSList :=
  let path := toStoragePath bucketsDir bucket wdelim key
  let dir := (SplitPathToDirAndFilename path).1
  match removePath (splitSegs path) fs with
  | none => .error ReadErr.notFound
  | some fs1 =>
    match fsReadDir fs1 dir with
    | .error e => .error e
    | .ok files =>
      if files.length = 0 then
        match removePath (splitSegs dir) fs1 with
        | none => .error ReadErr.notFound
        | some fs2 => .ok fs2
      else .ok fs1

/-- True when an entry at path `path` passes both skip-guards of the
traversal loop (objectstoreplugin.go:172-178): it starts with
`completePrefix` and the `prefixToCut` cut succeeds. -/
def passesFilters (cp pc path : Str) : Bool := strHasPre path cp && (cutPre path pc).isSome

/-- True exactly when every direct entry of the listing either fails the
traversal's skip-guards or is a directory: the declarative value of the
`allFilesDirs` boolean of `AddDirsWithCommonPrefixes`. -/
def directAllDirs (cp pc parent : Str) : FSList → Bool
  | .nil => true
  | .cons e rest =>
    (!(passesFilters cp pc (parent ++ e.name ++ strSlash)) || e.isDir)
      && directAllDirs cp pc parent rest

/-- Instrumented mirror of the traversal: lists, in traversal order, each
common prefix the real function appends together with the children of the
directory it was derived from. -/
def addDirsPairs : FSList → Str → Str → Str → List (Str × FSList)
  | .nil, _, _, _ => []
  | .cons (.file _) rest, cp, pc, parent => addDirsPairs rest cp pc parent
  | .cons (.dir n ch) rest, cp, pc, parent =>
    let completePath := parent ++ n ++ strSlash
    if ¬ strHasPre completePath cp then addDirsPairs rest cp pc parent
    else match cutPre completePath pc with
      | none => addDirsPairs rest cp pc parent
      | some common =>
        addDirsPairs ch cp pc completePath
          ++ (if directAllDirs cp pc completePath ch then [] else [(common, ch)])
          ++ addDirsPairs rest cp pc parent

/-- Spec-side description of the `ListObjects` result: every non-directory
entry of the listing, reported as the normalized prefix, the entry name
and the configured delimiter, in listing order. -/
def objectKeysSpec : FSList → Str → Str → List Str
  | .nil, _, _ => []
  | .cons (.dir _ _) rest, pfxU, wdelim => objectKeysSpec rest pfxU wdelim
  | .cons (.file n) rest, pfxU, wdelim =>
    (pfxU ++ n ++ wdelim) :: objectKeysSpec rest pfxU wdelim


/-- Builds a file entry from a string literal, for concrete inputs. -/
def fsFile (n : String) : FSEntry := .file (str n)
/-- Builds a directory entry from a string literal and children. -/
def fsDir (n : String) (ch : List FSEntry) : FSEntry := .dir (str n) (ch.foldr FSList.cons .nil)
/-- Builds an `FSList` from a plain list of entries. -/
def fsL (ch : List FSEntry) : FSList := ch.foldr FSList.cons .nil
/-- Tree b/A/B/f: directory A contains only the directory B, which contains
the file f. -/
def fsC1 : FSList := fsL [fsDir ("b") [fsDir ("A") [fsDir ("B") [fsFile ("f")]]]]
/-- Tree b/d/o for exercising the native-delimiter listing. -/
def fsC2w : FSList := fsL [fsDir ("b") [fsDir ("d") [fsFile ("o")]]]
/-- The directory tree of the specification scenario: bucketsDir
"backups/", bucket "backups", objects at keys "my-app/cars/a",
"my-app/trains/b" and "some-other-app/bridges/c". -/
def fsC3 : FSList := fsL [fsDir ("backups") [fsDir ("backups")
  [fsDir ("my-app") [fsDir ("cars") [fsFile ("a")], fsDir ("trains") [fsFile ("b")]],
   fsDir ("some-other-app") [fsDir ("bridges") [fsFile ("c")]]]]]
/-- Tree with the single object at storage path "b/a". -/
def fsC5 : FSList := fsL [fsDir ("b") [fsFile ("a")]]
/-- Tree with the single object at storage path "b-x-y/" as GetAllFiles
renders it (the file "-x-y" directly under the bucket root "b"). -/
def fsC6x : FSList := fsL [fsDir ("b") [fsFile ("-x-y")]]
/-- Tree b/sub/o for the native-delimiter suffix witness. -/
def fsC6w : FSList := fsL [fsDir ("b") [fsDir ("sub") [fsFile ("o")]]]
/-- Tree with the single file "-a--b" under bucket root "b": its enumerated
key has adjacent "-" occurrences, so its last-delimiter cut ends in "-". -/
def fsC6w2 : FSList := fsL [fsDir ("b") [fsFile ("-a--b")]]
/-- Tree with the single object "a" in bucket "b", whose deletion empties
the parent. -/
def fsC8 : FSList := fsL [fsDir ("b") [fsFile ("a")]]
/-- Tree with one file under bucket "b" for the non-native listing. -/
def fsC10 : FSList := fsL [fsDir ("b") [fsFile ("-u-v")]]


theorem cutPre_eq_some {s pre t : Str} (h : cutPre s pre = some t) : s = pre ++ t := by
  unfold cutPre at h
  split at h
  · rename_i hp
    obtain ⟨u, hu⟩ := hp
    cases h
    subst hu
    simp
  · exact absurd h (by simp)

theorem cutPre_append (pre t : Str) : cutPre (pre ++ t) pre = some t := by
  unfold cutPre
  rw [if_pos (List.prefix_append pre t)]
  simp

theorem AddDirs_eq_pairs : ∀ acc entries cp pc parent,
    AddDirsWithCommonPrefixes acc entries cp pc parent =
      (acc ++ (addDirsPairs entries cp pc parent).map Prod.fst,
       directAllDirs cp pc parent entries) := by
  intro acc entries cp pc parent
  induction acc, entries, cp, pc, parent using AddDirsWithCommonPrefixes.induct with
  | case1 acc cp pc parent =>
    simp [AddDirsWithCommonPrefixes, addDirsPairs, directAllDirs]
  | case2 acc n rest cp pc parent cPath hpre ih =>
    simp only [AddDirsWithCommonPrefixes, addDirsPairs, directAllDirs, passesFilters,
      FSEntry.name, FSEntry.isDir] at *
    simp only [cPath, List.append_assoc] at hpre
    simp [hpre, ih]
  | case3 acc n rest cp pc parent cPath hpre hcut ih =>
    simp only [AddDirsWithCommonPrefixes, addDirsPairs, directAllDirs, passesFilters,
      FSEntry.name, FSEntry.isDir] at *
    simp only [cPath, List.append_assoc] at hpre hcut
    simp only [not_not] at hpre
    simp [hpre, hcut, ih]
  | case4 acc n rest cp pc parent cPath hpre val hcut ih =>
    simp only [AddDirsWithCommonPrefixes, addDirsPairs, directAllDirs, passesFilters,
      FSEntry.name, FSEntry.isDir] at *
    simp only [cPath, List.append_assoc] at hpre hcut
    simp only [not_not] at hpre
    simp [hpre, hcut, ih]
  | case5 acc n ch rest cp pc parent cPath hpre ih =>
    simp only [AddDirsWithCommonPrefixes, addDirsPairs, directAllDirs, passesFilters,
      FSEntry.name, FSEntry.isDir] at *
    simp only [cPath, List.append_assoc] at hpre
    simp [hpre, ih]
  | case6 acc n ch rest cp pc parent cPath hpre hcut ih =>
    simp only [AddDirsWithCommonPrefixes, addDirsPairs, directAllDirs, passesFilters,
      FSEntry.name, FSEntry.isDir] at *
    simp only [cPath, List.append_assoc] at hpre hcut
    simp only [not_not] at hpre
    simp [hpre, hcut, ih]
  | case7 acc n ch rest cp pc parent cPath hpre val hcut sub acc2 ihch ihrest =>
    simp only [AddDirsWithCommonPrefixes, addDirsPairs, directAllDirs, passesFilters,
      FSEntry.name, FSEntry.isDir] at *
    simp only [cPath, List.append_assoc] at hpre hcut ihch
    simp only [not_not] at hpre
    simp only [sub, acc2, cPath, List.append_assoc] at ihrest
    rw [ihch] at ihrest
    by_cases hall : directAllDirs cp pc (parent ++ (n ++ strSlash)) ch
    · simp only [hall, if_true] at ihrest
      simp [hpre, hcut, hall, ihrest, ihch]
    · simp only [Bool.not_eq_true] at hall
      simp only [hall, if_false, Bool.false_eq_true] at ihrest
      simp only [List.append_assoc, List.singleton_append] at ihrest
      simp [hpre, hcut, hall, ihrest, ihch]

theorem cutPre_some_val {s pre t : Str} (h : cutPre s pre = some t) :
    t = s.drop pre.length := by
  unfold cutPre at h
  split at h
  · cases h; rfl
  · exact absurd h (by simp)

theorem FSList.inductionOn (Q : FSList → Prop) (hnil : Q .nil)
    (hcons : ∀ e rest, Q rest → Q (.cons e rest)) : ∀ l, Q l
  | .nil => hnil
  | .cons e rest => hcons e rest (FSList.inductionOn Q hnil hcons rest)

theorem directAllDirs_false_containsFile : ∀ cp pc parent l,
    directAllDirs cp pc parent l = false → containsFileL l = true := by
  intro cp pc parent l
  induction l using FSList.inductionOn with
  | hnil => simp [directAllDirs]
  | hcons e rest ih =>
    intro h
    simp only [directAllDirs, Bool.and_eq_false_iff] at h
    rcases h with h | h
    · simp only [Bool.or_eq_false_iff, Bool.not_eq_false] at h
      obtain ⟨-, hdir⟩ := h
      cases e with
      | file n => simp [containsFileL, containsFile]
      | dir n ch => simp [FSEntry.isDir] at hdir
    · simp [containsFileL, ih h]

theorem addDirsPairs_snd_false : ∀ entries cp pc parent p,
    p ∈ addDirsPairs entries cp pc parent →
    directAllDirs cp pc (pc ++ p.1) p.2 = false := by
  intro entries cp pc parent p
  induction entries, cp, pc, parent using addDirsPairs.induct with
  | case1 cp pc parent => simp [addDirsPairs]
  | case2 a rest cp pc parent ih => simpa [addDirsPairs] using ih
  | case3 n ch rest cp pc parent cPath hpre ih =>
    intro hp
    simp only [addDirsPairs, if_pos hpre] at hp
    exact ih hp
  | case4 n ch rest cp pc parent cPath hpre hcut ih =>
    intro hp
    simp only [addDirsPairs, if_neg hpre, hcut] at hp
    exact ih hp
  | case5 n ch rest cp pc parent cPath hpre val hcut ihch ihrest =>
    intro hp
    simp only [addDirsPairs, if_neg hpre, hcut, List.mem_append] at hp
    rcases hp with (hp | hp) | hp
    · exact ihch hp
    · have hcp := cutPre_eq_some hcut
      by_cases hall : directAllDirs cp pc cPath ch
      · rw [if_pos hall] at hp
        simp at hp
      · simp only [Bool.not_eq_true] at hall
        rw [if_neg (by rw [hall]; simp)] at hp
        simp only [List.mem_singleton] at hp
        subst hp
        simpa [← hcp] using hall
    · exact ihrest hp

theorem addDirsPairs_fst_slash : ∀ entries cp pc parent p,
    pc.length ≤ parent.length →
    p ∈ addDirsPairs entries cp pc parent → strHasSuf p.1 strSlash = true := by
  intro entries cp pc parent p
  induction entries, cp, pc, parent using addDirsPairs.induct with
  | case1 cp pc parent => simp [addDirsPairs]
  | case2 a rest cp pc parent ih => simpa [addDirsPairs] using ih
  | case3 n ch rest cp pc parent cPath hpre ih =>
    intro hlen hp
    simp only [addDirsPairs, if_pos hpre] at hp
    exact ih hlen hp
  | case4 n ch rest cp pc parent cPath hpre hcut ih =>
    intro hlen hp
    simp only [addDirsPairs, if_neg hpre, hcut] at hp
    exact ih hlen hp
  | case5 n ch rest cp pc parent cPath hpre val hcut ihch ihrest =>
    intro hlen hp
    simp only [addDirsPairs, if_neg hpre, hcut, List.mem_append] at hp
    have hlen2 : pc.length ≤ cPath.length := by
      simp only [cPath, List.length_append]
      omega
    rcases hp with (hp | hp) | hp
    · exact ihch hlen2 hp
    · have hval : val = cPath.drop pc.length := cutPre_some_val hcut
      have hsuf : strHasSuf val strSlash = true := by
        have : cPath = (parent ++ n) ++ strSlash := by simp [cPath]
        have hle : pc.length ≤ (parent ++ n).length := by
          simp only [List.length_append]
          omega
        rw [hval, this, List.drop_append_of_le_length hle]
        simp [strHasSuf]
      have : p.1 = val := by
        by_cases hall : directAllDirs cp pc cPath ch
        · rw [if_pos hall] at hp
          simp at hp
        · rw [if_neg hall] at hp
          simp only [List.mem_singleton] at hp
          subst hp
          rfl
      rw [this]
      exact hsuf
    · exact ihrest hlen hp

theorem singleton_prefix_cons {c a : Char} {rest : Str} :
    [c] <+: (a :: rest) ↔ c = a := by
  simp [List.cons_prefix_cons]

theorem lastIdx_single_some : ∀ (s : Str) (c : Char) (i : Nat),
    lastIdxOfSubstr s [c] = some i → s.take i ++ c :: s.drop (i + 1) = s := by
  intro s
  induction s with
  | nil => intro c i h; simp [lastIdxOfSubstr] at h
  | cons a rest ih =>
    intro c i h
    simp only [lastIdxOfSubstr] at h
    cases hr : lastIdxOfSubstr rest [c] with
    | some j =>
      rw [hr] at h
      injection h with h
      subst h
      simp only [List.take_succ_cons, List.drop_succ_cons, List.cons_append]
      exact congrArg (a :: ·) (ih c j hr)
    | none =>
      rw [hr] at h
      by_cases hp : [c] <+: (a :: rest)
      · rw [if_pos hp] at h
        injection h with h
        subst h
        have hc : c = a := singleton_prefix_cons.mp hp
        subst hc
        simp
      · rw [if_neg hp] at h
        exact absurd h (by simp)

theorem lastIdx_single_mem : ∀ (s : Str) (c : Char) (i : Nat),
    lastIdxOfSubstr s [c] = some i → c ∈ s := by
  intro s c i h
  have := lastIdx_single_some s c i h
  rw [← this]
  simp

theorem lastIdx_single_none : ∀ (s : Str) (c : Char),
    lastIdxOfSubstr s [c] = none → c ∉ s := by
  intro s
  induction s with
  | nil => intro c _; simp
  | cons a rest ih =>
    intro c h
    simp only [lastIdxOfSubstr] at h
    cases hr : lastIdxOfSubstr rest [c] with
    | some j => rw [hr] at h; simp at h
    | none =>
      rw [hr] at h
      by_cases hp : [c] <+: (a :: rest)
      · rw [if_pos hp] at h
        simp at h
      · simp only [List.mem_cons, not_or]
        exact ⟨fun hc => hp (singleton_prefix_cons.mpr hc), ih c hr⟩

theorem fdc_replace_same : ∀ (es : FSList) (seg newCh ch : _),
    findDirChildren es seg = some ch →
    findDirChildren (replaceDirChildren es seg newCh) seg = some newCh := by
  intro es
  induction es using FSList.inductionOn with
  | hnil => intro seg newCh ch h; simp [findDirChildren] at h
  | hcons e rest ih =>
    intro seg newCh ch h
    cases e with
    | file n =>
      simp only [findDirChildren, replaceDirChildren] at *
      exact ih seg newCh ch h
    | dir n ch2 =>
      by_cases hn : n = seg
      · subst hn
        simp [findDirChildren, replaceDirChildren]
      · simp only [findDirChildren, replaceDirChildren, if_neg hn] at *
        exact ih seg newCh ch h

theorem removePath_preserves_above : ∀ (q segs : List Str) (es es' : FSList),
    removePath segs es = some es' → q <+: segs → q ≠ segs →
    (resolveDir q es).isSome → (resolveDir q es').isSome := by
  intro q
  induction q with
  | nil =>
    intro segs es es' _ _ _ _
    simp [resolveDir]
  | cons b q' ih =>
    intro segs es es' hrem hpre hne hsome
    match segs with
    | [] => simp [removePath] at hrem
    | [seg] =>
      have hb : b = seg := (List.cons_prefix_cons.mp hpre).1
      have hq' : q' = [] := by
        have := (List.cons_prefix_cons.mp hpre).2
        simpa using this
      subst hb hq'
      exact absurd rfl hne
    | seg :: seg2 :: rest =>
      have hb : b = seg := (List.cons_prefix_cons.mp hpre).1
      have hq' : q' <+: seg2 :: rest := (List.cons_prefix_cons.mp hpre).2
      have hq'ne : q' ≠ seg2 :: rest := by
        intro hc
        exact hne (by rw [hb, hc])
      subst hb
      simp only [removePath] at hrem
      split at hrem
      · simp at hrem
      · rename_i ch hfd
        split at hrem
        · simp at hrem
        · rename_i ch2 hrp
          injection hrem with hrem
          subst hrem
          simp only [resolveDir, hfd] at hsome
          have := ih (seg2 :: rest) ch ch2 hrp hq' hq'ne hsome
          simp only [resolveDir, fdc_replace_same es b ch2 ch hfd]
          exact this

theorem collectObjects_eq_spec : ∀ (files : FSList) (pc pfxU wdelim : Str),
    collectObjects files (pc ++ pfxU) pc wdelim = objectKeysSpec files pfxU wdelim := by
  intro files pc pfxU wdelim
  induction files using FSList.inductionOn with
  | hnil => rfl
  | hcons e rest ih =>
    cases e with
    | dir n ch => simpa [collectObjects, objectKeysSpec] using ih
    | file n =>
      have hcut : cutPre ((pc ++ pfxU) ++ n ++ wdelim) pc = some (pfxU ++ n ++ wdelim) := by
        have : (pc ++ pfxU) ++ n ++ wdelim = pc ++ (pfxU ++ n ++ wdelim) := by simp
        rw [this, cutPre_append]
      simp only [collectObjects, objectKeysSpec, hcut]
      rw [ih]

theorem FSList.length_eq_zero {l : FSList} : l.length = 0 ↔ l = .nil := by
  cases l with
  | nil => simp [FSList.length]
  | cons e rest => simp [FSList.length]

/-- Characterizes membership in the result of `determineLoop`: beyond the
accumulator, every produced prefix is the portion of some listed file key,
after the prefixToCut removal, strictly before the last occurrence of the
delimiter. -/
theorem determineLoop_mem : ∀ fileList delim pc seen acc s,
    s ∈ determineLoop fileList delim pc seen acc →
    s ∈ acc ∨ ∃ f ∈ fileList, ∃ common i, cutPre f pc = some common
      ∧ lastIdxOfSubstr common delim = some i ∧ s = common.take i := by
  intro fileList delim pc seen acc s
  induction fileList, delim, pc, seen, acc using determineLoop.induct with
  | case1 delim pc seen acc => intro h; exact Or.inl h
  | case2 f rest delim pc seen acc hcut ih =>
    intro h
    rcases ih (by simpa [determineLoop, hcut] using h) with h | ⟨g, hg, rest2⟩
    · exact Or.inl h
    · exact Or.inr ⟨g, List.mem_cons_of_mem f hg, rest2⟩
  | case3 f rest delim pc seen acc common hcut hlast ih =>
    intro h
    rcases ih (by simpa [determineLoop, hcut, hlast] using h) with h | ⟨g, hg, rest2⟩
    · exact Or.inl h
    · exact Or.inr ⟨g, List.mem_cons_of_mem f hg, rest2⟩
  | case4 f rest delim pc seen acc common hcut i hlast cur hseen ih =>
    intro h
    rcases ih (by simpa [determineLoop, hcut, hlast, hseen] using h) with h | ⟨g, hg, rest2⟩
    · exact Or.inl h
    · exact Or.inr ⟨g, List.mem_cons_of_mem f hg, rest2⟩
  | case5 f rest delim pc seen acc common hcut i hlast cur hseen ih =>
    intro h
    rcases ih (by simpa [determineLoop, hcut, hlast, hseen] using h) with h | ⟨g, hg, rest2⟩
    · rcases List.mem_append.mp h with h | h
      · exact Or.inl h
      · simp only [List.mem_singleton] at h
        exact Or.inr ⟨f, List.mem_cons_self f rest, common, i, hcut, hlast, by rw [h]⟩
    · exact Or.inr ⟨g, List.mem_cons_of_mem f hg, rest2⟩

/-- Claim C1, amended: in the native-delimiter traversal
`AddDirsWithCommonPrefixes`, the boolean returned by each recursive call is
true exactly when every direct entry of the directory that passes the
completePrefix/prefixToCut skip-guards is itself a directory (transitive
entries do not influence it); the returned prefix list appends exactly the
prefixes described by `addDirsPairs`, whose construction includes a visited
directory if and only if that boolean for its children is false, i.e. at
least one direct filtered entry is a non-directory. -/
theorem c1_addDirs_boolean_direct_only : ∀ acc entries cp pc parent,
    ((AddDirsWithCommonPrefixes acc entries cp pc parent).2 = directAllDirs cp pc parent entries)
    ∧ ((AddDirsWithCommonPrefixes acc entries cp pc parent).1
        = acc ++ (addDirsPairs entries cp pc parent).map Prod.fst)
    ∧ (∀ p ∈ addDirsPairs entries cp pc parent,
        directAllDirs cp pc (pc ++ p.1) p.2 = false) := by
  intro acc entries cp pc parent
  refine ⟨?_, ?_, ?_⟩
  · rw [AddDirs_eq_pairs]
  · rw [AddDirs_eq_pairs]
  · intro p hp
    exact addDirsPairs_snd_false entries cp pc parent p hp

/-- Claim C1, counterexample to the original statement: in the tree
b/A/B/f the directory A transitively contains the non-directory f, yet
the returned list is exactly ["A/B/"] (A is absent), and the recursive
call on A's entries returns true although not all of A's transitive
entries are directories. -/
theorem c1_counterexample :
    ListCommonPrefixes [] (fsReadDir fsC1) (str ("b")) [] strSlash = Except.ok [str ("A/B/")]
    ∧ str ("A/") ∉ [str ("A/B/")]
    ∧ containsFileL (fsL [fsDir ("B") [fsFile ("f")]]) = true
    ∧ (AddDirsWithCommonPrefixes [] (fsL [fsDir ("B") [fsFile ("f")]])
        (str ("b/")) (str ("b/")) (str ("b/A/"))).2 = true :=
  ⟨rfl, by decide, rfl, rfl⟩

/-- Claim C1 witness: the amended theorem applied to a concrete call,
including one concrete pair membership. -/
theorem c1_witness :
    (AddDirsWithCommonPrefixes [] (fsL [fsDir ("B") [fsFile ("f")]]) (str ("b/")) (str ("b/"))
        (str ("b/A/"))).2
      = directAllDirs (str ("b/")) (str ("b/")) (str ("b/A/")) (fsL [fsDir ("B") [fsFile ("f")]])
    ∧ directAllDirs (str ("b/")) (str ("b/")) (str ("b/") ++ str ("A/B/")) (fsL [fsFile ("f")]) = false :=
  ⟨(c1_addDirs_boolean_direct_only [] (fsL [fsDir ("B") [fsFile ("f")]]) (str ("b/")) (str ("b/"))
      (str ("b/A/"))).1,
   (c1_addDirs_boolean_direct_only [] (fsL [fsDir ("B") [fsFile ("f")]]) (str ("b/")) (str ("b/"))
      (str ("b/A/"))).2.2 (str ("A/B/"), fsL [fsFile ("f")]) (by decide)⟩

/-- Claim C2: with delimiter "/", every element returned by
`ListCommonPrefixes` is the cut prefix of a directory visited by the
traversal whose children transitively contain at least one non-directory
object; hence no returned prefix names a directory whose transitive
contents are exclusively further directories. -/
theorem c2_no_alldirs_pfx : ∀ bucketsDir readDir bucket pfx entries out,
    readDir (rootDirOf bucketsDir bucket pfx strSlash) = .ok entries →
    ListCommonPrefixes bucketsDir readDir bucket pfx strSlash = .ok out →
    ∀ s ∈ out,
      ∃ ch, ((s, ch) ∈ addDirsPairs entries (rootDirOf bucketsDir bucket pfx strSlash)
          (prefixToCutOf bucketsDir bucket strSlash) (rootDirOf bucketsDir bucket pfx strSlash))
        ∧ containsFileL ch = true := by
  intro bucketsDir readDir bucket pfx entries out hread hlist s hs
  simp only [ListCommonPrefixes, hread, if_pos rfl] at hlist
  rw [AddDirs_eq_pairs] at hlist
  injection hlist with hlist
  subst hlist
  simp only [List.nil_append, List.mem_map] at hs
  obtain ⟨p, hp, hps⟩ := hs
  refine ⟨p.2, ?_, ?_⟩
  · have : (s, p.2) = p := by rw [← hps]
    rw [this]
    exact hp
  · exact directAllDirs_false_containsFile _ _ _ _ (addDirsPairs_snd_false _ _ _ _ p hp)

/-- Claim C2 witness: the theorem applied to the tree b/d/o and the
returned prefix "d/". -/
theorem c2_witness :
    ∃ ch, (((str ("d/")), ch) ∈ addDirsPairs (fsL [fsDir ("d") [fsFile ("o")]])
        (rootDirOf [] (str ("b")) [] strSlash) (prefixToCutOf [] (str ("b")) strSlash)
        (rootDirOf [] (str ("b")) [] strSlash))
      ∧ containsFileL ch = true :=
  c2_no_alldirs_pfx [] (fsReadDir fsC2w) (str ("b")) [] (fsL [fsDir ("d") [fsFile ("o")]])
    [str ("d/")] rfl rfl (str ("d/")) (by decide)

/-- Claim C3: with bucketsDir "backups/", bucket "backups" and objects at
keys "my-app/cars/a", "my-app/trains/b" and "some-other-app/bridges/c",
listing common prefixes of bucket "backups" under prefix "my-app" with
delimiter "/" returns exactly ["my-app/cars/", "my-app/trains/"] in that
depth-first order, with no entry for "some-other-app/...". -/
theorem c3_scenario :
    ListCommonPrefixes (str ("backups/")) (fsReadDir fsC3) (str ("backups")) (str ("my-app")) strSlash
      = Except.ok [str ("my-app/cars/"), str ("my-app/trains/")] := rfl

/-- Claim C4, code bug: `Init` tests `strings.HasPrefix` instead of
`HasSuffix` (objectstoreplugin.go:68), so the non-empty configuration
value "/backups" is stored unchanged and does not end with "/",
contradicting the struct field comment (objectstoreplugin.go:36) and the
documented invariant. -/
theorem c4_initBucketsDir_bug :
    initBucketsDir (str ("/backups")) = str ("/backups")
    ∧ str ("/backups") ≠ []
    ∧ strHasSuf (initBucketsDir (str ("/backups"))) strSlash = false :=
  ⟨rfl, by decide, by decide⟩

/-- Claim C5, amended: `ListObjects` returns exactly the non-directory
entries directly under bucket+prefix, each reported as the storage path
with the bucketsDir+bucket+delimiter portion stripped from the front and
the configured delimiter appended at the end (objectstoreplugin.go:356),
and omits all keys nested in deeper subdirectories. -/
theorem c5_listObjects_result : ∀ bucketsDir wdelim readDir bucket pfx files,
    readDir (objectsPathOf bucketsDir wdelim bucket pfx) = .ok files →
    ListObjects bucketsDir wdelim readDir bucket pfx
      = .ok (objectKeysSpec files (normalizePfx pfx wdelim) wdelim) := by
  intro bucketsDir wdelim readDir bucket pfx files hread
  simp only [ListObjects, hread]
  have hpath : objectsPathOf bucketsDir wdelim bucket pfx
      = prefixToCutOf bucketsDir bucket wdelim ++ normalizePfx pfx wdelim := by
    simp [objectsPathOf, prefixToCutOf]
  rw [hpath, collectObjects_eq_spec]

/-- Claim C5, counterexample to the original statement: for the single
object at storage path "b/a" the stripped path is "a" (third conjunct),
but `ListObjects` returns ["a/"]: the configured delimiter is appended,
not nothing. -/
theorem c5_counterexample :
    ListObjects [] strSlash (fsReadDir fsC5) (str ("b")) [] = Except.ok [str ("a/")]
    ∧ [str ("a/")] ≠ [str ("a")]
    ∧ cutPre (toStoragePath [] (str ("b")) strSlash (str ("a")))
        (prefixToCutOf [] (str ("b")) strSlash) = some (str ("a")) :=
  ⟨rfl, by decide, by decide⟩

/-- Claim C5 witness: the amended theorem applied to the tree with one
object "a" in bucket "b". -/
theorem c5_witness :
    ListObjects [] strSlash (fsReadDir fsC5) (str ("b")) []
      = Except.ok (objectKeysSpec (fsL [fsFile ("a")]) (normalizePfx [] strSlash) strSlash) :=
  c5_listObjects_result [] strSlash (fsReadDir fsC5) (str ("b")) [] (fsL [fsFile ("a")]) rfl

/-- Claim C6, amended: in the native-delimiter case (delimiter "/"),
every prefix string returned by `ListCommonPrefixes` ends with the
delimiter; in the non-native case every returned prefix is the portion of
some enumerated file key, after the prefixToCut removal, strictly before
the last occurrence of the delimiter (objectstoreplugin.go:231), and so
need not end with the delimiter (see the counterexample). -/
theorem c6_prefix_delim_shape :
    (∀ bucketsDir readDir bucket pfx out s,
      ListCommonPrefixes bucketsDir readDir bucket pfx strSlash = .ok out →
      s ∈ out → strHasSuf s strSlash = true)
    ∧ (∀ bucketsDir readDir bucket pfx delim entries out s,
      delim ≠ strSlash →
      readDir (rootDirOf bucketsDir bucket pfx delim) = .ok entries →
      ListCommonPrefixes bucketsDir readDir bucket pfx delim = .ok out →
      s ∈ out →
      ∃ f ∈ GetAllFiles [] entries (rootDirOf bucketsDir bucket pfx delim),
        ∃ common i, cutPre f (prefixToCutOf bucketsDir bucket delim) = some common
          ∧ lastIdxOfSubstr common delim = some i ∧ s = common.take i) := by
  constructor
  · intro bucketsDir readDir bucket pfx out s hlist hs
    simp only [ListCommonPrefixes] at hlist
    cases hread : readDir (rootDirOf bucketsDir bucket pfx strSlash) with
    | error e =>
      simp only [hread] at hlist
      by_cases he : e = ReadErr.notFound
      · simp only [if_pos he] at hlist
        injection hlist with hlist
        rw [← hlist] at hs
        simp at hs
      · simp only [if_neg he] at hlist
        exact absurd hlist (by simp)
    | ok entries =>
      simp only [hread, if_pos rfl] at hlist
      rw [AddDirs_eq_pairs] at hlist
      injection hlist with hlist
      rw [← hlist] at hs
      simp only [List.nil_append, List.mem_map] at hs
      obtain ⟨p, hp, hps⟩ := hs
      rw [← hps]
      refine addDirsPairs_fst_slash _ _ _ _ p ?_ hp
      simp [rootDirOf, prefixToCutOf]
  · intro bucketsDir readDir bucket pfx delim entries out s hne hread hlist hs
    simp only [ListCommonPrefixes, hread, if_neg hne] at hlist
    injection hlist with hlist
    rw [← hlist] at hs
    rcases determineLoop_mem _ _ _ _ _ _ hs with h | h
    · simp at h
    · exact h

/-- Claim C6, counterexample to the original statement: with delimiter
"-" (the non-native case) the returned prefix "x" does not end with the
delimiter, because `DeterminePrefixesFromFilesWithDelimiter` takes the
portion strictly before the last delimiter occurrence
(objectstoreplugin.go:231). -/
theorem c6_counterexample :
    ListCommonPrefixes [] (fsReadDir fsC6x) (str ("b")) [] (str ("-")) = Except.ok [str ("x")]
    ∧ strHasSuf (str ("x")) (str ("-")) = false :=
  ⟨rfl, by decide⟩

/-- Claim C6 witness: the native half applied to the tree b/sub/o and the
returned prefix "sub/"; the non-native half applied with delimiter "-" to
the file "-a--b", whose returned prefix "a-" is the cut key's portion
before the last delimiter occurrence. -/
theorem c6_witness :
    strHasSuf (str ("sub/")) strSlash = true
    ∧ ∃ f ∈ GetAllFiles [] (fsL [fsFile ("-a--b")]) (rootDirOf [] (str ("b")) [] (str ("-"))),
        ∃ common i, cutPre f (prefixToCutOf [] (str ("b")) (str ("-"))) = some common
          ∧ lastIdxOfSubstr common (str ("-")) = some i ∧ str ("a-") = common.take i :=
  ⟨c6_prefix_delim_shape.1 [] (fsReadDir fsC6w) (str ("b")) [] [str ("sub/")] (str ("sub/"))
     rfl (by decide),
   c6_prefix_delim_shape.2 [] (fsReadDir fsC6w2) (str ("b")) [] (str ("-"))
     (fsL [fsFile ("-a--b")]) [str ("a-")] (str ("a-")) (by decide) rfl rfl (by decide)⟩

/-- Claim C7: for both `ListCommonPrefixes` and `ListObjects`, a
not-found error on the root-directory read yields an empty result and no
error, and any other root read error is propagated unchanged. -/
theorem c7_root_notfound_absorbed : ∀ bucketsDir wdelim readDir bucket pfx delim e,
    (readDir (rootDirOf bucketsDir bucket pfx delim) = .error e →
      ListCommonPrefixes bucketsDir readDir bucket pfx delim
        = if e = ReadErr.notFound then .ok [] else .error e)
    ∧ (readDir (objectsPathOf bucketsDir wdelim bucket pfx) = .error e →
      ListObjects bucketsDir wdelim readDir bucket pfx
        = if e = ReadErr.notFound then .ok [] else .error e) := by
  intro bucketsDir wdelim readDir bucket pfx delim e
  constructor
  · intro hread
    simp only [ListCommonPrefixes, hread]
  · intro hread
    simp only [ListObjects, hread]

/-- Claim C7 witness: the theorem applied to a transport whose every
read reports not-found. -/
theorem c7_witness :
    ListCommonPrefixes [] (fun _ => Except.error ReadErr.notFound) (str ("b")) [] strSlash
      = Except.ok []
    ∧ ListObjects [] strSlash (fun _ => Except.error ReadErr.notFound) (str ("b")) []
      = Except.ok [] :=
  ⟨((c7_root_notfound_absorbed [] strSlash (fun _ => Except.error ReadErr.notFound) (str ("b")) []
      strSlash ReadErr.notFound).1 rfl).trans rfl,
   ((c7_root_notfound_absorbed [] strSlash (fun _ => Except.error ReadErr.notFound) (str ("b")) []
      strSlash ReadErr.notFound).2 rfl).trans rfl⟩

/-- Claim C8: `DeleteObject` removes the object at its mapped path and
then removes the parent directory exactly when the parent listing is empty
after the removal, leaving the parent untouched otherwise; errors of the
object removal, the parent listing and the parent removal are propagated;
and the cleanup never cascades above the immediate parent: every ancestor
directory that resolved before the parent removal still resolves after
it. -/
theorem c8_deleteObject_flow : ∀ bucketsDir wdelim fs bucket key path dir,
    path = toStoragePath bucketsDir bucket wdelim key →
    dir = (SplitPathToDirAndFilename path).1 →
    (removePath (splitSegs path) fs = none →
      DeleteObject bucketsDir wdelim fs bucket key = .error ReadErr.notFound)
    ∧ (∀ fs1, removePath (splitSegs path) fs = some fs1 →
        (∀ e, fsReadDir fs1 dir = .error e →
          DeleteObject bucketsDir wdelim fs bucket key = .error e)
        ∧ (∀ files, fsReadDir fs1 dir = .ok files → files ≠ .nil →
            DeleteObject bucketsDir wdelim fs bucket key = .ok fs1)
        ∧ (fsReadDir fs1 dir = .ok .nil →
            DeleteObject bucketsDir wdelim fs bucket key =
              match removePath (splitSegs dir) fs1 with
              | none => .error ReadErr.notFound
              | some fs2 => .ok fs2)
        ∧ (∀ fs2 q, removePath (splitSegs dir) fs1 = some fs2 →
            q <+: splitSegs dir → q ≠ splitSegs dir →
            (resolveDir q fs1).isSome → (resolveDir q fs2).isSome)) := by
  intro bucketsDir wdelim fs bucket key path dir hpath hdir
  subst hpath
  subst hdir
  constructor
  · intro h
    simp only [DeleteObject, h]
  · intro fs1 h1
    refine ⟨?_, ?_, ?_, ?_⟩
    · intro e h2
      simp only [DeleteObject, h1, h2]
    · intro files h2 h3
      have hlen : ¬ files.length = 0 := fun hc => h3 (FSList.length_eq_zero.mp hc)
      simp only [DeleteObject, h1, h2, if_neg hlen]
    · intro h2
      simp only [DeleteObject, h1, h2, FSList.length, if_pos rfl, if_true]
    · intro fs2 q h2 hq hqne hsome
      exact removePath_preserves_above q
        (splitSegs (SplitPathToDirAndFilename (toStoragePath bucketsDir bucket wdelim key)).1)
        fs1 fs2 h2 hq hqne hsome

/-- Claim C8 witness: deleting the only object "a" of bucket "b" also
removes the then-empty parent directory. -/
theorem c8_witness :
    DeleteObject [] strSlash fsC8 (str ("b")) (str ("a")) = Except.ok FSList.nil :=
  (((c8_deleteObject_flow [] strSlash fsC8 (str ("b")) (str ("a")) _ _ rfl rfl).2
      (FSList.cons (FSEntry.dir (str ("b")) FSList.nil) FSList.nil) rfl).2.2.1 rfl).trans rfl

/-- Claim C9: for every storage path built by the path mapper from a
non-empty bucket/key pair, recombining the two parts of
`SplitPathToDirAndFilename` as dir ++ "/" ++ name reproduces the path
whenever it contains the native separator "/"; when it does not, the
split yields dir = "" and name equal to the full path. -/
theorem c9_split_roundtrip : ∀ bucketsDir bucket delim key,
    bucket ≠ [] → key ≠ [] →
    (('/' ∈ toStoragePath bucketsDir bucket delim key) →
      (SplitPathToDirAndFilename (toStoragePath bucketsDir bucket delim key)).1 ++ strSlash ++
        (SplitPathToDirAndFilename (toStoragePath bucketsDir bucket delim key)).2
        = toStoragePath bucketsDir bucket delim key)
    ∧ (('/' ∉ toStoragePath bucketsDir bucket delim key) →
      SplitPathToDirAndFilename (toStoragePath bucketsDir bucket delim key)
        = ([], toStoragePath bucketsDir bucket delim key)) := by
  intro bucketsDir bucket delim key _ _
  constructor
  · intro hmem
    cases h : lastIdxOfSubstr (toStoragePath bucketsDir bucket delim key) strSlash with
    | none => exact absurd hmem (lastIdx_single_none _ '/' h)
    | some i =>
      simp only [SplitPathToDirAndFilename, h]
      have := lastIdx_single_some _ '/' i h
      simpa [strSlash] using this
  · intro hmem
    cases h : lastIdxOfSubstr (toStoragePath bucketsDir bucket delim key) strSlash with
    | none => simp [SplitPathToDirAndFilename, h]
    | some i => exact absurd (lastIdx_single_mem _ '/' i h) hmem

/-- Claim C9 witness: the theorem applied to the storage path "b/k". -/
theorem c9_witness :
    (SplitPathToDirAndFilename (toStoragePath [] (str ("b")) strSlash (str ("k")))).1 ++ strSlash ++
      (SplitPathToDirAndFilename (toStoragePath [] (str ("b")) strSlash (str ("k")))).2
      = toStoragePath [] (str ("b")) strSlash (str ("k")) :=
  (c9_split_roundtrip [] (str ("b")) strSlash (str ("k")) (by decide) (by decide)).1 (by decide)

/-- Claim C10: when the delimiter argument differs from the native
separator "/", the result of `ListCommonPrefixes` does not depend on the
prefix argument. -/
theorem c10_nonnative_ignores_pfx : ∀ bucketsDir readDir bucket delim p1 p2,
    delim ≠ strSlash →
    ListCommonPrefixes bucketsDir readDir bucket p1 delim
      = ListCommonPrefixes bucketsDir readDir bucket p2 delim := by
  intro bucketsDir readDir bucket delim p1 p2 hne
  simp only [ListCommonPrefixes, rootDirOf, if_neg hne]

/-- Claim C10 witness: the theorem applied with delimiter "-" and the
two prefixes "p1" and "p2". -/
theorem c10_witness :
    (str ("-")) ≠ strSlash
    ∧ ListCommonPrefixes [] (fsReadDir fsC10) (str ("b")) (str ("p1")) (str ("-"))
      = ListCommonPrefixes [] (fsReadDir fsC10) (str ("b")) (str ("p2")) (str ("-")) :=
  ⟨by decide,
   c10_nonnative_ignores_pfx [] (fsReadDir fsC10) (str ("b")) (str ("-")) (str ("p1")) (str ("p2"))
     (by decide)⟩
